import Mathlib

/-
  Verification of the feature-extraction core of the viasat-replication
  repository (src/features/feature_creation.py, src/features/features.py).

  Modelling conventions (shallow embedding):
  * A pandas DataFrame row of the preprocessed flow CSV is a `Row` whose
    fields are `Option Int` (`none` models NaN); `dropna` keeps exactly the
    rows with every field present, as `df.dropna(how='any')` does.
  * Timestamps are integer milliseconds (the `time` column produced by
    `etl.py`, which sorts by `time` and casts to int).
  * `np.arange(start, stop, step)` for a positive step is `arange`,
    implemented with explicit fuel so that it is structurally recursive
    and evaluates inside the kernel.
  * `pd.cut(x, bins)` with the default `right=True` assigns a value `t`
    to the first pair of consecutive bin edges `(a, b]` with `a < t ≤ b`;
    this is `cutIdx`.
  * Python's `int / int` raises `ZeroDivisionError` on a zero denominator;
    in `engineer_features` the only denominator that can be zero after the
    skip-guard is the sent-direction packet count, so the embedding
    returns an explicit error result in exactly that case.
  * Exact rational arithmetic (`ℚ`) stands in for Python floats where the
    claims are about which data enters a computation, not about rounding.
-/

namespace Viasat

/-- A fully-present packet record: integer millisecond timestamp, byte
size, and direction code (1 = sent, 2 = received). -/
structure Packet where
  time : Int
  size : Int
  dir : Int
deriving DecidableEq, Repr

/-- A raw CSV row as seen by `engineer_features` before `dropna`; `none`
models a NaN entry. -/
structure Row where
  time : Option Int
  size : Option Int
  dir : Option Int
deriving DecidableEq, Repr

/-- A row survives `df.dropna(how='any')` iff every field is present. -/
def Row.toPacket? (r : Row) : Option Packet :=
  match r.time, r.size, r.dir with
  | some t, some s, some d => some ⟨t, s, d⟩
  | _, _, _ => none

/-- `df.dropna(how='any')`: keep exactly the rows with all fields present. -/
def dropna (rows : List Row) : List Packet :=
  rows.filterMap Row.toPacket?

def Packet.toRow (p : Packet) : Row :=
  ⟨some p.time, some p.size, some p.dir⟩

/-! ## StreakAnalyzer: `longest_dir_streak` (feature_creation.py lines 20-33) -/

/-- The loop of `longest_dir_streak`: increment `current` on a match,
otherwise commit `current` into `longest` and reset; at the end commit the
trailing run (`max longest current`). -/
def streakLoop (d : Int) : List Int → Nat → Nat → Nat
  | [], longest, current => max longest current
  | num :: rest, longest, current =>
    if num = d then streakLoop d rest longest (current + 1)
    else streakLoop d rest (max longest current) 0

/-- `longest_dir_streak(vals, dir)` from feature_creation.py. -/
def longest_dir_streak (vals : List Int) (d : Int) : Nat :=
  streakLoop d vals 0 0

/-- Length of the run of `d`-values starting at the head of `l`. -/
def runHere (d : Int) (l : List Int) : Nat :=
  (l.takeWhile (fun x => x == d)).length

/-- Mathematical specification of the longest maximal consecutive run of
`d` in `vals`: the maximum, over all suffixes, of the run starting there. -/
def longestRunSpec (vals : List Int) (d : Int) : Nat :=
  (vals.tails.map (runHere d)).foldr max 0

theorem longestRunSpec_nil (d : Int) : longestRunSpec [] d = 0 := rfl

theorem longestRunSpec_cons (x : Int) (l : List Int) (d : Int) :
    longestRunSpec (x :: l) d = max (runHere d (x :: l)) (longestRunSpec l d) := by
  simp [longestRunSpec]

theorem runHere_replicate (C : Nat) (d : Int) :
    runHere d (List.replicate C d) = C := by
  induction C with
  | zero => rfl
  | succ C ih =>
    simp only [List.replicate_succ, runHere, List.takeWhile_cons, beq_self_eq_true,
      if_true, List.length_cons]
    simp only [runHere] at ih
    omega

theorem runHere_ne (x : Int) (l : List Int) (d : Int) (hx : x ≠ d) :
    runHere d (x :: l) = 0 := by
  simp [runHere, List.takeWhile_cons, hx]

theorem runHere_replicate_append (C : Nat) (d x : Int) (l : List Int) (hx : x ≠ d) :
    runHere d (List.replicate C d ++ x :: l) = C := by
  induction C with
  | zero => simpa using runHere_ne x l d hx
  | succ C ih =>
    simp only [List.replicate_succ, List.cons_append, runHere, List.takeWhile_cons,
      beq_self_eq_true, if_true, List.length_cons]
    simpa [runHere] using ih

theorem longestRunSpec_replicate (C : Nat) (d : Int) :
    longestRunSpec (List.replicate C d) d = C := by
  induction C with
  | zero => rfl
  | succ C ih =>
    rw [List.replicate_succ, longestRunSpec_cons, ih]
    rw [show (List.replicate C d : List Int) = List.replicate C d from rfl] at *
    rw [← List.replicate_succ, runHere_replicate]
    exact Nat.max_eq_left (Nat.le_succ C)

theorem longestRunSpec_replicate_prepend (C : Nat) (d x : Int) (l : List Int)
    (hx : x ≠ d) :
    longestRunSpec (List.replicate C d ++ x :: l) d
      = max C (longestRunSpec (x :: l) d) := by
  induction C with
  | zero => simp
  | succ C ih =>
    rw [List.replicate_succ, List.cons_append, longestRunSpec_cons, ih]
    have hrun : runHere d (List.replicate C d ++ x :: l) = C :=
      runHere_replicate_append C d x l hx
    have : runHere d (d :: (List.replicate C d ++ x :: l)) = C + 1 := by
      simp [runHere, List.takeWhile_cons] at hrun ⊢
      exact hrun
    rw [this, ← Nat.max_assoc]
    rw [Nat.max_eq_left (Nat.le_succ C)]

theorem streakLoop_invariant (d : Int) :
    ∀ (l : List Int) (L C : Nat),
      streakLoop d l L C = max L (longestRunSpec (List.replicate C d ++ l) d) := by
  intro l
  induction l with
  | nil =>
    intro L C
    simp [streakLoop, longestRunSpec_replicate]
  | cons x l ih =>
    intro L C
    by_cases hx : x = d
    · subst hx
      have hshift : List.replicate C x ++ x :: l = List.replicate (C + 1) x ++ l := by
        rw [List.replicate_succ' C x, List.append_assoc]
        rfl
      simp only [streakLoop, if_true]
      rw [ih L (C + 1), hshift]
    · simp only [streakLoop, if_neg hx]
      rw [ih (max L C) 0, List.replicate_zero, List.nil_append]
      rw [longestRunSpec_replicate_prepend C d x l hx]
      rw [longestRunSpec_cons, runHere_ne x l d hx, Nat.max_comm 0, Nat.max_zero]
      rw [Nat.max_assoc]

/-- The loop of `longest_dir_streak` computes exactly the longest maximal
run of the target code. -/
theorem longest_dir_streak_eq_spec (vals : List Int) (d : Int) :
    longest_dir_streak vals d = longestRunSpec vals d := by
  rw [longest_dir_streak, streakLoop_invariant d vals 0 0]
  simp

theorem foldr_max_le (l : List Nat) (n : Nat) (h : ∀ x ∈ l, x ≤ n) :
    l.foldr max 0 ≤ n := by
  induction l with
  | nil => exact Nat.zero_le n
  | cons a l ih =>
    simp only [List.foldr_cons]
    exact Nat.max_le.mpr ⟨h a (List.mem_cons_self a l), ih fun x hx => h x (List.mem_cons_of_mem a hx)⟩

theorem le_foldr_max (l : List Nat) (x : Nat) (h : x ∈ l) :
    x ≤ l.foldr max 0 := by
  induction l with
  | nil => cases h
  | cons a l ih =>
    simp only [List.foldr_cons]
    rcases List.mem_cons.mp h with rfl | hx
    · exact Nat.le_max_left _ _
    · exact Nat.le_trans (ih hx) (Nat.le_max_right _ _)

theorem runHere_le_one_of_chain (d : Int) (t : List Int)
    (hc : t.Chain' (fun a b => a ≠ b)) : runHere d t ≤ 1 := by
  match t with
  | [] => exact Nat.zero_le 1
  | [a] =>
    by_cases ha : a = d
    · simp [runHere, List.takeWhile_cons, ha]
    · simp [runHere_ne a [] d ha]
  | a :: b :: r =>
    by_cases ha : a = d
    · subst ha
      have hab : a ≠ b := (List.chain'_cons.mp hc).1
      have hb : b ≠ a := fun h => hab h.symm
      simp [runHere, List.takeWhile_cons, hb]
    · simp [runHere_ne a (b :: r) d ha]

theorem longestRunSpec_alternating (vals : List Int) (d : Int)
    (hc : vals.Chain' (fun a b => a ≠ b)) (hd : d ∈ vals) :
    longestRunSpec vals d = 1 := by
  apply Nat.le_antisymm
  · apply foldr_max_le
    intro x hx
    rcases List.mem_map.mp hx with ⟨t, ht, rfl⟩
    exact runHere_le_one_of_chain d t (hc.suffix ((List.mem_tails _ _).mp ht))
  · rcases List.append_of_mem hd with ⟨s, t, rfl⟩
    have hmem : (d :: t) ∈ (s ++ d :: t).tails :=
      (List.mem_tails _ _).mpr (List.suffix_append s (d :: t))
    have h1 : 1 ≤ runHere d (d :: t) := by
      simp [runHere, List.takeWhile_cons]
    exact Nat.le_trans h1
      (le_foldr_max _ _ (List.mem_map.mpr ⟨d :: t, hmem, rfl⟩))

/-- C6: for every finite sequence of direction codes and every target
direction, `longest_dir_streak` returns the length of the longest maximal
consecutive run of the target code; a constant sequence of length n in the
target direction returns n, a strictly alternating sequence containing the
target returns 1, and the empty sequence returns 0. -/
theorem claim_C6_longest_dir_streak :
    (∀ (vals : List Int) (d : Int),
        longest_dir_streak vals d = longestRunSpec vals d) ∧
    (∀ (n : Nat) (d : Int),
        longest_dir_streak (List.replicate n d) d = n) ∧
    (∀ (vals : List Int) (d : Int),
        vals.Chain' (fun a b => a ≠ b) → d ∈ vals →
        longest_dir_streak vals d = 1) ∧
    (∀ d : Int, longest_dir_streak [] d = 0) := by
  refine ⟨longest_dir_streak_eq_spec, ?_, ?_, ?_⟩
  · intro n d
    rw [longest_dir_streak_eq_spec, longestRunSpec_replicate]
  · intro vals d hc hd
    rw [longest_dir_streak_eq_spec, longestRunSpec_alternating vals d hc hd]
  · intro d
    rfl

/-- C6 witness: the theorem applied at concrete inputs; the alternating
branch is discharged on the sequence 1, 2, 1 with target 1. -/
theorem claim_C6_witness :
    longest_dir_streak [1, 2, 1] 1 = 1 :=
  claim_C6_longest_dir_streak.2.2.1 [1, 2, 1] 1 (by norm_num [List.chain'_cons]) (by decide)

/-! ## Windower: `split` (feature_creation.py lines 4-17) -/

/-- Fuel-indexed core of `np.arange(start, stop, step)` for a positive
step; the fuel `(stop - start).toNat` is always sufficient (each iteration
advances `start` by `step ≥ 1`). -/
def arangeAux (step : Int) : Nat → Int → Int → List Int
  | 0, _, _ => []
  | fuel + 1, start, stop =>
    if start < stop then start :: arangeAux step fuel (start + step) stop else []

/-- `np.arange(start, stop, step)` for positive `step`: the values
`start, start + step, …` strictly below `stop`. -/
def arange (start stop step : Int) : List Int :=
  if 0 < step then arangeAux step (stop - start).toNat start stop else []

theorem arangeAux_fuel_irrelevant (step : Int) (hstep : 0 < step) :
    ∀ (fuel fuel' : Nat) (start stop : Int),
      stop - start ≤ (fuel : Int) → stop - start ≤ (fuel' : Int) →
      arangeAux step fuel start stop = arangeAux step fuel' start stop := by
  intro fuel
  induction fuel with
  | zero =>
    intro fuel' start stop h h'
    have hge : stop ≤ start := by exact_mod_cast by omega
    cases fuel' with
    | zero => rfl
    | succ k =>
      simp [arangeAux, show ¬ start < stop by omega]
  | succ n ih =>
    intro fuel' start stop h h'
    cases fuel' with
    | zero =>
      have hge : stop ≤ start := by exact_mod_cast by omega
      simp [arangeAux, show ¬ start < stop by omega]
    | succ k =>
      by_cases hlt : start < stop
      · simp only [arangeAux, if_pos hlt]
        have hn : stop - (start + step) ≤ (n : Int) := by push_cast at h ⊢; omega
        have hk : stop - (start + step) ≤ (k : Int) := by push_cast at h' ⊢; omega
        rw [ih k (start + step) stop hn hk]
      · simp [arangeAux, hlt]

/-- The recursive unfolding of `np.arange` for a positive step. -/
theorem arange_eq (start stop step : Int) (hstep : 0 < step) :
    arange start stop step =
      if start < stop then start :: arange (start + step) stop step else [] := by
  by_cases hlt : start < stop
  · simp only [arange, if_pos hstep, if_pos hlt]
    have h1 : (stop - start).toNat = (stop - start - 1).toNat + 1 := by omega
    rw [h1]
    simp only [arangeAux, if_pos hlt]
    congr 1
    apply arangeAux_fuel_irrelevant step hstep
    · omega
    · omega
  · simp only [arange, if_pos hstep, if_neg hlt]
    have h0 : (stop - start).toNat = 0 := by omega
    rw [h0]
    rfl

theorem arange_empty_of_ge (start stop step : Int) (hstep : 0 < step)
    (h : stop ≤ start) : arange start stop step = [] := by
  rw [arange_eq start stop step hstep, if_neg (by omega)]

/-- Strong-induction principle along the `arange` recursion. -/
theorem arange_induction (step : Int) (hstep : 0 < step)
    (P : Int → Int → Prop)
    (base : ∀ start stop : Int, stop ≤ start → P start stop)
    (ind : ∀ start stop : Int, start < stop → P (start + step) stop → P start stop) :
    ∀ start stop : Int, P start stop := by
  intro start stop
  by_cases hlt : start < stop
  · have hm : ∀ (n : Nat) (start : Int), stop - start ≤ (n : Int) → P start stop := by
      intro n
      induction n with
      | zero =>
        intro s hs
        exact base s stop (by exact_mod_cast by omega)
      | succ k ih =>
        intro s hs
        by_cases h : s < stop
        · refine ind s stop h (ih (s + step) ?_)
          push_cast at hs ⊢; omega
        · exact base s stop (by omega)
    exact hm (stop - start).toNat start (by omega)
  · exact base start stop (by omega)

theorem arange_chain_step (start stop step : Int) (hstep : 0 < step) :
    (arange start stop step).Chain' (fun a b => b = a + step) := by
  refine arange_induction step hstep
    (fun s e => (arange s e step).Chain' (fun a b => b = a + step)) ?_ ?_ start stop
  · intro s e hle
    rw [arange_empty_of_ge s e step hstep hle]
    exact List.chain'_nil
  · intro s e hlt ih
    rw [arange_eq s e step hstep, if_pos hlt]
    rw [arange_eq (s + step) e step hstep] at ih ⊢
    by_cases h2 : s + step < e
    · rw [if_pos h2] at ih ⊢
      exact List.chain'_cons.mpr ⟨rfl, ih⟩
    · rw [if_neg h2] at ih ⊢
      exact List.chain'_singleton s

theorem chain_step_pairwise_lt (l : List Int) (step : Int) (hstep : 0 < step)
    (h : l.Chain' (fun a b => b = a + step)) : l.Pairwise (· < ·) := by
  have hlt : l.Chain' (· < ·) := h.imp (fun a b hab => by omega)
  exact List.chain'_iff_pairwise.mp hlt

theorem arange_head (start stop step : Int) (hstep : 0 < step) (h : start < stop) :
    (arange start stop step).head? = some start := by
  rw [arange_eq start stop step hstep, if_pos h]
  rfl

theorem arange_getLast_bounds (start stop step : Int) (hstep : 0 < step)
    (h : start < stop) :
    ∃ L, (arange start stop step).getLast? = some L ∧ stop - step ≤ L ∧ L < stop := by
  refine arange_induction step hstep
    (fun s e => s < e → ∃ L, (arange s e step).getLast? = some L ∧ e - step ≤ L ∧ L < e)
    ?_ ?_ start stop h
  · intro s e hle hlt
    omega
  · intro s e hlt ih _
    rw [arange_eq s e step hstep, if_pos hlt]
    by_cases h2 : s + step < e
    · rcases ih h2 with ⟨L, hL, hb1, hb2⟩
      refine ⟨L, ?_, hb1, hb2⟩
      rw [arange_eq (s + step) e step hstep, if_pos h2] at hL ⊢
      rw [List.getLast?_cons_cons]
      exact hL
    · have hnil : arange (s + step) e step = [] :=
        arange_empty_of_ge (s + step) e step hstep (by omega)
      rw [hnil]
      exact ⟨s, rfl, by omega, hlt⟩

/-- `pd.cut(t, bins)` with the default right-closed intervals: the index
`i` of the first consecutive pair of bin edges with `bins[i] < t ≤
bins[i+1]`, if any. -/
def cutIdx : List Int → Int → Option Nat
  | b0 :: b1 :: rest, t =>
    if b0 < t ∧ t ≤ b1 then some 0
    else (cutIdx (b1 :: rest) t).map (· + 1)
  | _, _ => none

theorem pairwise_lt_head_le (x : Int) (l : List Int) (j : Nat) (v : Int)
    (hp : (x :: l).Pairwise (· < ·)) (hj : (x :: l).get? j = some v) : x ≤ v := by
  cases j with
  | zero =>
    simp only [List.get?_cons_zero, Option.some_inj] at hj
    omega
  | succ k =>
    simp only [List.get?_cons_succ] at hj
    have hmem : v ∈ l := List.get?_mem hj
    exact le_of_lt ((List.pairwise_cons.mp hp).1 v hmem)

theorem head_le_getLast_of_pairwise (l : List Int) (h0 L : Int)
    (hp : l.Pairwise (· < ·)) (hh : l.head? = some h0) (hL : l.getLast? = some L) :
    h0 ≤ L := by
  cases l with
  | nil => exact Option.noConfusion hh
  | cons x xs =>
    simp only [List.head?_cons, Option.some_inj] at hh
    subst hh
    have hmem : L ∈ x :: xs := by
      rcases List.mem_getLast?_eq_getLast (show L ∈ (x :: xs).getLast? from hL) with ⟨hne, hEq⟩
      rw [hEq]
      exact List.getLast_mem hne
    rcases List.mem_cons.mp hmem with rfl | hmem'
    · exact le_rfl
    · exact le_of_lt ((List.pairwise_cons.mp hp).1 L hmem')

/-- Coverage of `pd.cut`: for strictly increasing bin edges, a value is
assigned to some interval exactly when it lies in the half-open (left-open,
right-closed) span from the first edge to the last edge. -/
theorem cutIdx_isSome_iff (bins : List Int) (t h0 L : Int)
    (hp : bins.Pairwise (· < ·)) (hh : bins.head? = some h0)
    (hL : bins.getLast? = some L) :
    (cutIdx bins t).isSome ↔ (h0 < t ∧ t ≤ L) := by
  induction bins generalizing h0 with
  | nil => exact Option.noConfusion hh
  | cons b0 rest ih =>
    simp only [List.head?_cons, Option.some_inj] at hh
    subst hh
    cases rest with
    | nil =>
      simp only [List.getLast?_singleton, Option.some_inj] at hL
      subst hL
      simp only [cutIdx, Option.isSome_none]
      constructor
      · intro h
        exact absurd h (by simp)
      · intro h
        omega
    | cons b1 rest' =>
      have hL' : (b1 :: rest').getLast? = some L := by
        rw [← hL]
        rfl
      have hp' : (b1 :: rest').Pairwise (· < ·) := (List.pairwise_cons.mp hp).2
      have hb01 : b0 < b1 := (List.pairwise_cons.mp hp).1 b1 (List.mem_cons_self _ _)
      have hb1L : b1 ≤ L :=
        head_le_getLast_of_pairwise (b1 :: rest') b1 L hp' rfl hL'
      by_cases hc : b0 < t ∧ t ≤ b1
      · simp only [cutIdx, if_pos hc, Option.isSome_some, true_iff]
        exact ⟨hc.1, le_trans hc.2 hb1L⟩
      · simp only [cutIdx, if_neg hc, Option.isSome_map']
        rw [ih b1 hp' rfl hL']
        constructor
        · intro ⟨h1, h2⟩
          exact ⟨by omega, h2⟩
        · intro ⟨h1, h2⟩
          constructor
          · by_cases hb : t ≤ b1
            · exact absurd ⟨h1, hb⟩ hc
            · omega
          · exact h2

/-- Interval semantics of `pd.cut`: for strictly increasing bin edges,
`t` is assigned index `i` exactly when `bins[i] < t ≤ bins[i+1]`. -/
theorem cutIdx_eq_some_iff (bins : List Int) (t : Int) (i : Nat)
    (hp : bins.Pairwise (· < ·)) :
    cutIdx bins t = some i ↔
      ∃ a b, bins.get? i = some a ∧ bins.get? (i + 1) = some b ∧ a < t ∧ t ≤ b := by
  induction bins generalizing i with
  | nil =>
    simp only [cutIdx, List.get?_nil]
    constructor
    · intro h; exact Option.noConfusion h
    · rintro ⟨a, b, h, _⟩; exact Option.noConfusion h
  | cons b0 rest ih =>
    cases rest with
    | nil =>
      simp only [cutIdx]
      constructor
      · intro h; exact Option.noConfusion h
      · rintro ⟨a, b, ha, hb, _⟩
        cases i with
        | zero => exact Option.noConfusion hb
        | succ k =>
          simp only [List.get?_cons_succ, List.get?_nil] at hb
          exact Option.noConfusion hb
    | cons b1 rest' =>
      have hp' : (b1 :: rest').Pairwise (· < ·) := (List.pairwise_cons.mp hp).2
      cases i with
      | zero =>
        by_cases hc : b0 < t ∧ t ≤ b1
        · simp only [cutIdx, if_pos hc]
          constructor
          · intro _
            exact ⟨b0, b1, rfl, rfl, hc.1, hc.2⟩
          · intro _
            trivial
        · simp only [cutIdx, if_neg hc]
          constructor
          · intro h
            rcases Option.map_eq_some'.mp h with ⟨k, _, hk⟩
            omega
          · rintro ⟨a, b, ha, hb, h1, h2⟩
            simp only [List.get?_cons_zero, Option.some_inj] at ha
            simp only [List.get?_cons_succ, List.get?_cons_zero, Option.some_inj] at hb
            subst ha; subst hb
            exact absurd ⟨h1, h2⟩ hc
      | succ k =>
        by_cases hc : b0 < t ∧ t ≤ b1
        · simp only [cutIdx, if_pos hc]
          constructor
          · intro h
            simp only [Option.some_inj] at h
            omega
          · rintro ⟨a, b, ha, hb, h1, h2⟩
            simp only [List.get?_cons_succ] at ha hb
            have hb1a : b1 ≤ a := pairwise_lt_head_le b1 rest' k a hp' ha
            omega
        · simp only [cutIdx, if_neg hc]
          constructor
          · intro h
            rcases Option.map_eq_some'.mp h with ⟨j, hj, hjk⟩
            have hjk' : j = k := by omega
            rw [hjk'] at hj
            rcases (ih k hp').mp hj with ⟨a, b, ha, hb, h1, h2⟩
            exact ⟨a, b, by simpa using ha, by simpa using hb, h1, h2⟩
          · rintro ⟨a, b, ha, hb, h1, h2⟩
            simp only [List.get?_cons_succ] at ha hb
            have : cutIdx (b1 :: rest') t = some k :=
              (ih k hp').mpr ⟨a, b, ha, hb, h1, h2⟩
            rw [this]
            rfl

/-- Spec-side variant of the bin assignment following the claim's words:
half-open `[start, end)` intervals, under which a value at an exact bin
boundary would belong to the interval starting there. Used only to compare
the claimed edge policy with the code's actual (`cutIdx`) policy. -/
def cutIdxLeftClosed : List Int → Int → Option Nat
  | b0 :: b1 :: rest, t =>
    if b0 ≤ t ∧ t < b1 then some 0
    else (cutIdxLeftClosed (b1 :: rest) t).map (· + 1)
  | _, _ => none

/-- The bin edges `split` builds: `np.arange(first_time - 1, last_time +
chunk_size, chunk_size)`; `[]` for an empty flow (where the source raises
before reaching this point). -/
def splitBins (packets : List Packet) (chunk : Int) : List Int :=
  match packets with
  | [] => []
  | p0 :: rest =>
    arange (p0.time - 1) (((p0 :: rest).getLast (List.cons_ne_nil p0 rest)).time + chunk) chunk

/-- `split(filename, chunk_size)` from feature_creation.py.  `novideo`
says whether the substring 'novideo' occurs in the filename (the
streaming label is its negation).  On an empty flow the source raises
IndexError at `df['time'].values[0]`, modelled as `none`.  `pd.cut`
assigns each row the right-closed interval of consecutive bin edges
containing its time, and `groupby('binned')` on the categorical column
yields one group per interval (including empty ones), in interval order,
preserving row order within each group. The claims exercise `split` only
for `chunk_size > 0` (for `chunk_size ≤ 0` the source would raise inside
`pd.cut`, which this embedding does not model). -/
def split (novideo : Bool) (packets : List Packet) (chunk : Int) :
    Option (List (Nat × List Packet)) :=
  match packets with
  | [] => none
  | p0 :: rest =>
    let streaming : Nat := if novideo then 0 else 1
    let bins := splitBins (p0 :: rest) chunk
    some ((List.range (bins.length - 1)).map (fun i =>
      (streaming, (p0 :: rest).filter (fun q => cutIdx bins q.time == some i))))

theorem head_le_mem_of_pairwise (l : List Int) (h0 : Int)
    (hp : l.Pairwise (· ≤ ·)) (hh : l.head? = some h0) :
    ∀ x ∈ l, h0 ≤ x := by
  cases l with
  | nil => exact fun x hx => absurd hx (List.not_mem_nil x)
  | cons a l =>
    simp only [List.head?_cons, Option.some_inj] at hh
    subst hh
    intro x hx
    rcases List.mem_cons.mp hx with rfl | hx'
    · exact le_rfl
    · exact (List.pairwise_cons.mp hp).1 x hx'

theorem mem_le_getLast_of_pairwise (l : List Int) (L : Int)
    (hp : l.Pairwise (· ≤ ·)) (hL : l.getLast? = some L) :
    ∀ x ∈ l, x ≤ L := by
  induction l with
  | nil => exact fun x hx => absurd hx (List.not_mem_nil x)
  | cons a l ih =>
    intro x hx
    cases l with
    | nil =>
      simp only [List.getLast?_singleton, Option.some_inj] at hL
      subst hL
      rcases List.mem_cons.mp hx with rfl | h
      · exact le_rfl
      · exact absurd h (List.not_mem_nil x)
    | cons b l' =>
      have hL' : (b :: l').getLast? = some L := by
        rw [← hL, List.getLast?_cons_cons]
      rcases List.mem_cons.mp hx with rfl | h
      · have hmem : L ∈ b :: l' := by
          rcases List.mem_getLast?_eq_getLast (show L ∈ (b :: l').getLast? from hL')
            with ⟨hne, hEq⟩
          rw [hEq]
          exact List.getLast_mem hne
        exact (List.pairwise_cons.mp hp).1 L hmem
      · exact ih (List.pairwise_cons.mp hp).2 hL' x h

/-- C1 (amended): for a non-empty sorted flow and `chunk_size > 0`, the
bin edges start at `first_time - 1` and advance by `chunk_size`; the last
edge `L` is the unique edge in `[last_time, last_time + chunk_size)`; a
time is assigned to some window exactly when it lies in the left-open
right-closed span `(first_time - 1, L]` (so the union of the windows'
right-closed intervals covers exactly `(first_time - 1, L]`, not
`[first_time - 1, last_time + chunk_size)`); a time is assigned to window
`i` exactly when it lies in the right-closed interval
`(bins[i], bins[i+1]]` — in particular a packet at an exact bin boundary
belongs to the window ENDING at that boundary — and every packet of the
flow falls into exactly one produced window. -/
theorem claim_C1_split_partition (nv : Bool) (p0 : Packet) (ps : List Packet)
    (chunk : Int) (hchunk : 0 < chunk)
    (hsorted : ((p0 :: ps).map Packet.time).Chain' (· ≤ ·)) :
    ∃ ws L,
      split nv (p0 :: ps) chunk = some ws ∧
      (splitBins (p0 :: ps) chunk).head? = some (p0.time - 1) ∧
      (splitBins (p0 :: ps) chunk).Chain' (fun a b => b = a + chunk) ∧
      (splitBins (p0 :: ps) chunk).getLast? = some L ∧
      ((p0 :: ps).getLast (List.cons_ne_nil p0 ps)).time ≤ L ∧
      L < ((p0 :: ps).getLast (List.cons_ne_nil p0 ps)).time + chunk ∧
      (∀ t : Int,
        (cutIdx (splitBins (p0 :: ps) chunk) t).isSome ↔ (p0.time - 1 < t ∧ t ≤ L)) ∧
      (∀ (t : Int) (i : Nat), cutIdx (splitBins (p0 :: ps) chunk) t = some i ↔
        ∃ a b, (splitBins (p0 :: ps) chunk).get? i = some a ∧
          (splitBins (p0 :: ps) chunk).get? (i + 1) = some b ∧ a < t ∧ t ≤ b) ∧
      ws.length = (splitBins (p0 :: ps) chunk).length - 1 ∧
      (∀ i w, ws.get? i = some w →
        w = ((if nv then 0 else 1 : Nat),
          (p0 :: ps).filter
            (fun q => cutIdx (splitBins (p0 :: ps) chunk) q.time == some i))) ∧
      (∀ q ∈ p0 :: ps, ∃ i w, ws.get? i = some w ∧ q ∈ w.2 ∧
        ∀ j w', ws.get? j = some w' → q ∈ w'.2 → j = i) := by
  have hp : ((p0 :: ps).map Packet.time).Pairwise (· ≤ ·) :=
    List.chain'_iff_pairwise.mp hsorted
  set pN := (p0 :: ps).getLast (List.cons_ne_nil p0 ps) with hpN
  have htimes_head : ((p0 :: ps).map Packet.time).head? = some p0.time := rfl
  have htimes_last : ((p0 :: ps).map Packet.time).getLast? = some pN.time := by
    rw [List.getLast?_map, List.getLast?_eq_getLast _ (List.cons_ne_nil p0 ps)]
    rfl
  have ht0N : p0.time ≤ pN.time := by
    refine head_le_mem_of_pairwise _ _ hp htimes_head pN.time ?_
    rcases List.mem_getLast?_eq_getLast (show pN.time ∈ _ from htimes_last) with ⟨hne, hEq⟩
    rw [hEq]
    exact List.getLast_mem hne
  have hlt : p0.time - 1 < pN.time + chunk := by omega
  have hbins : splitBins (p0 :: ps) chunk = arange (p0.time - 1) (pN.time + chunk) chunk := rfl
  have bchain : (splitBins (p0 :: ps) chunk).Chain' (fun a b => b = a + chunk) := by
    rw [hbins]; exact arange_chain_step _ _ _ hchunk
  have bpair : (splitBins (p0 :: ps) chunk).Pairwise (· < ·) :=
    chain_step_pairwise_lt _ chunk hchunk bchain
  have bhead : (splitBins (p0 :: ps) chunk).head? = some (p0.time - 1) := by
    rw [hbins]; exact arange_head _ _ _ hchunk hlt
  obtain ⟨L, hLlast, hLlb, hLub⟩ :
      ∃ L, (splitBins (p0 :: ps) chunk).getLast? = some L ∧
        pN.time + chunk - chunk ≤ L ∧ L < pN.time + chunk := by
    rw [hbins]; exact arange_getLast_bounds _ _ _ hchunk hlt
  have hcover : ∀ t : Int,
      (cutIdx (splitBins (p0 :: ps) chunk) t).isSome ↔ (p0.time - 1 < t ∧ t ≤ L) :=
    fun t => cutIdx_isSome_iff _ t _ L bpair bhead hLlast
  have hinterval : ∀ (t : Int) (i : Nat),
      cutIdx (splitBins (p0 :: ps) chunk) t = some i ↔
        ∃ a b, (splitBins (p0 :: ps) chunk).get? i = some a ∧
          (splitBins (p0 :: ps) chunk).get? (i + 1) = some b ∧ a < t ∧ t ≤ b :=
    fun t i => cutIdx_eq_some_iff _ t i bpair
  refine ⟨_, L, rfl, bhead, bchain, hLlast, by omega, hLub, hcover, hinterval, ?_, ?_, ?_⟩
  · simp
  · intro i w hw
    rw [List.get?_map] at hw
    rcases Option.map_eq_some'.mp hw with ⟨j, hj, rfl⟩
    have hilt : i < (splitBins (p0 :: ps) chunk).length - 1 := by
      simpa using (List.get?_eq_some.mp hj).1
    rw [List.get?_range hilt] at hj
    have hji : j = i := (Option.some_inj.mp hj).symm
    subst hji
    rfl
  · intro q hq
    have hq_lb : p0.time ≤ q.time :=
      head_le_mem_of_pairwise _ _ hp htimes_head q.time (List.mem_map_of_mem _ hq)
    have hq_ub : q.time ≤ pN.time :=
      mem_le_getLast_of_pairwise _ _ hp htimes_last q.time (List.mem_map_of_mem _ hq)
    have hsome : (cutIdx (splitBins (p0 :: ps) chunk) q.time).isSome :=
      (hcover q.time).mpr ⟨by omega, by omega⟩
    rcases Option.isSome_iff_exists.mp hsome with ⟨i, hi⟩
    rcases (hinterval q.time i).mp hi with ⟨a, b, ha, hb, _, _⟩
    have hib : i + 1 < (splitBins (p0 :: ps) chunk).length :=
      (List.get?_eq_some.mp hb).1
    have hilt : i < (splitBins (p0 :: ps) chunk).length - 1 := by omega
    refine ⟨i, ((if nv then 0 else 1 : Nat),
      (p0 :: ps).filter
        (fun q => cutIdx (splitBins (p0 :: ps) chunk) q.time == some i)), ?_, ?_, ?_⟩
    · rw [List.get?_map, List.get?_range hilt]
      rfl
    · simp only [List.mem_filter]
      exact ⟨hq, by simp [hi]⟩
    · intro j w' hw' hqw'
      rw [List.get?_map] at hw'
      rcases Option.map_eq_some'.mp hw' with ⟨j', hj', rfl⟩
      have hjlt2 : j < (splitBins (p0 :: ps) chunk).length - 1 := by
        simpa using (List.get?_eq_some.mp hj').1
      rw [List.get?_range hjlt2] at hj'
      have hjj : j' = j := (Option.some_inj.mp hj').symm
      subst hjj
      simp only [List.mem_filter, beq_iff_eq] at hqw'
      have : cutIdx (splitBins (p0 :: ps) chunk) q.time = some j' := hqw'.2
      rw [hi] at this
      exact (Option.some_inj.mp this).symm

/-- C1 counterexample to the claim as stated, at the concrete flow with
packet times 1 and 10 and `chunk_size = 10` (bins `[0, 10]`, one produced
window): the packet at the exact bin boundary 10 is assigned to the
window with interval `(0, 10]` (the window ending at the boundary), while
under the claim's `[start, end)` semantics it would belong to no produced
window at all; and the time 19, although inside the claimed coverage
`[t0 - 1, tN + chunk_size) = [0, 20)`, is assigned to no window. -/
theorem claim_C1_counterexample :
    cutIdx (arange 0 20 10) 10 = some 0 ∧
    cutIdxLeftClosed (arange 0 20 10) 10 = none ∧
    cutIdx (arange 0 20 10) 19 = none ∧
    split false [⟨1, 100, 1⟩, ⟨10, 100, 2⟩] 10 =
      some [(1, [⟨1, 100, 1⟩, ⟨10, 100, 2⟩])] := by
  decide

/-- C1 witness: the amended theorem applied to the flow with packet times
1 and 10 and `chunk_size = 10`. -/
theorem claim_C1_witness :
    ∃ ws L,
      split false [⟨1, 100, 1⟩, ⟨10, 100, 2⟩] 10 = some ws ∧
      (splitBins [⟨1, 100, 1⟩, ⟨10, 100, 2⟩] 10).getLast? = some L ∧
      (∀ t : Int,
        (cutIdx (splitBins [⟨1, 100, 1⟩, ⟨10, 100, 2⟩] 10) t).isSome ↔ (0 < t ∧ t ≤ L)) := by
  obtain ⟨ws, L, h1, _, _, h4, _, _, h7, _⟩ :=
    claim_C1_split_partition false ⟨1, 100, 1⟩ [⟨10, 100, 2⟩] 10 (by decide)
      (by norm_num [List.chain'_cons])
  exact ⟨ws, L, h1, h4, fun t => by simpa using h7 t⟩

/-- C7 counterexample: on an empty flow, `split` hits
`df['time'].values[0]` on an empty column and raises IndexError (modelled
as `none`); it does not return an empty sequence of windows. -/
theorem claim_C7_counterexample :
    split false ([] : List Packet) 10 = none ∧
    split false ([] : List Packet) 10 ≠ some [] := by
  decide

/-- C7 (amended): for every non-empty flow (and positive chunk size)
`split` terminates without raising and returns a sequence of windows; an
empty flow instead raises IndexError rather than yielding no windows. -/
theorem claim_C7_amended (nv : Bool) (packets : List Packet) (chunk : Int)
    (hne : packets ≠ []) (_hchunk : 0 < chunk) :
    ∃ ws, split nv packets chunk = some ws := by
  cases packets with
  | nil => exact absurd rfl hne
  | cons p0 rest => exact ⟨_, rfl⟩

/-- C7 witness: the amended theorem applied to a one-packet flow. -/
theorem claim_C7_witness :
    ∃ ws, split false [⟨0, 1, 1⟩] 5 = some ws :=
  claim_C7_amended false [⟨0, 1, 1⟩] 5 (by decide) (by decide)

/-! ## RollingAggregator: `roll` (feature_creation.py lines 36-47) -/

/-- Mean of a list of rationals; `none` on the empty list (pandas yields
NaN there). -/
def mean? (l : List ℚ) : Option ℚ :=
  if l = [] then none else some (l.sum / (l.length : ℚ))

/-- `roll(df, column, seconds, stats=['mean'])` with the default `mean`
aggregate.  The source computes `window_width = pd.offsets.Second(seconds)`
but never uses it: it calls `.rolling(seconds)` with the raw integer, so
pandas builds a FIXED-COUNT window of `seconds` observations with
`min_periods = seconds` (the first `seconds - 1` outputs are NaN), not a
trailing time window. -/
def roll (values : List ℚ) (seconds : Nat) : List (Option ℚ) :=
  (List.range values.length).map (fun i =>
    if seconds ≤ i + 1 then mean? ((values.take (i + 1)).drop (i + 1 - seconds))
    else none)

/-- Modelled from the spec's words (refinement comparison only): the
aggregate over a trailing window of the given TIME width (in seconds)
ending at each observation's millisecond timestamp, right-closed as
pandas time-based rolling would be. -/
def rollTimeSpec (rows : List (Int × ℚ)) (seconds : Int) : List (Option ℚ) :=
  rows.map (fun r =>
    mean? ((rows.filter (fun q => q.1 ≤ r.1 ∧ r.1 - seconds * 1000 < q.1)).map (·.2)))

/-- C2: evaluation of `roll` against the spec's time-width semantics on
three observations 10 seconds apart with window parameter 2.  The code's
`.rolling(2)` is a fixed count of 2 observations (NaN first, then means of
adjacent pairs); a trailing 2-second TIME window would contain only the
observation itself (each value unchanged, defined everywhere).  The two
disagree, refuting the claim that `roll` aggregates over a trailing time
width: the source computes the time offset `window_width` and then never
passes it to `.rolling`. -/
theorem claim_C2_roll_is_count_based :
    roll [1, 2, 3] 2 = [none, some (3 / 2), some (5 / 2)] ∧
    rollTimeSpec [(0, 1), (10000, 2), (20000, 3)] 2 = [some 1, some 2, some 3] ∧
    roll [1, 2, 3] 2 ≠ rollTimeSpec [(0, 1), (10000, 2), (20000, 3)] 2 := by
  have h1 : roll [1, 2, 3] 2 = [none, some (3 / 2), some (5 / 2)] := by
    simp [roll, mean?, List.range_succ]
    norm_num
  have h2 : rollTimeSpec [(0, 1), (10000, 2), (20000, 3)] 2
      = [some 1, some 2, some 3] := by
    simp [rollTimeSpec, mean?]
  refine ⟨h1, h2, ?_⟩
  rw [h1, h2]
  simp

/-! ## SpectralProminenceEstimator (features.py lines 78-86)

The Welch power-spectral-density estimate itself is floating-point signal
processing and is not shallowly embeddable; it enters the embedding as an
uninterpreted spectrum (the `√PSD` array).  What the claims are about —
`scipy.signal.find_peaks`, `peak_prominences`, and the `try/except`
around `.max()` — is embedded below over exact rationals. -/

/-- `scipy.signal.find_peaks` with no optional arguments: local maxima
with plateau handling; a peak is reported at the (floor) midpoint of a
maximal plateau that strictly rises on the left and strictly falls on the
right edge; signal edges cannot be peaks. -/
def find_peaks (x : List ℚ) : List Nat :=
  let n := x.length
  (List.range n).filterMap (fun l =>
    if 1 ≤ l ∧ l + 1 < n ∧ x.getD (l - 1) 0 < x.getD l 0 then
      let v := x.getD l 0
      let k := (((x.drop (l + 1)).take (n - 1 - (l + 1))).takeWhile
        (fun u => u == v)).length
      let iAhead := l + 1 + k
      if x.getD iAhead 0 < v then some ((l + (iAhead - 1)) / 2) else none
    else none)

/-- Prominence of the peak at index `p` (scipy `peak_prominences` with no
window length): scan left and right while values do not exceed the peak,
take the minimum on each side, and subtract the larger of the two minima
from the peak height. -/
def prominence (x : List ℚ) (p : Nat) : ℚ :=
  let v := x.getD p 0
  let leftMin := (((x.take p).reverse).takeWhile (fun u => decide (u ≤ v))).foldl min v
  let rightMin := ((x.drop (p + 1)).takeWhile (fun u => decide (u ≤ v))).foldl min v
  v - max leftMin rightMin

/-- `scipy.signal.peak_prominences(x, peaks)[0]`. -/
def peak_prominences (x : List ℚ) (peaks : List Nat) : List ℚ :=
  peaks.map (prominence x)

/-- Lines 81-86 of features.py: find peaks on the √PSD array, compute
their prominences, and take `prominences.max()`; the bare `except` around
`.max()` catches the ValueError raised by an empty reduction and
substitutes 0. -/
def max_frequency_prominence (x : List ℚ) : ℚ :=
  let proms := peak_prominences x (find_peaks x)
  match proms.max? with
  | some m => m
  | none => 0

/-- C5: whenever peak detection finds no peaks on the spectrum, the
prominence array is empty, its `.max()` raises, the bare `except` catches
it, and the `max_frequency_prominence` feature is 0; no error escapes the
spectral step (the embedded step is a total function). -/
theorem claim_C5_no_peaks_gives_zero (x : List ℚ)
    (h : find_peaks x = []) : max_frequency_prominence x = 0 := by
  simp [max_frequency_prominence, peak_prominences, h]

/-- C5 witness: a strictly increasing spectrum has no peaks and gets
prominence feature 0. -/
theorem claim_C5_witness :
    find_peaks [1, 2, 3] = [] ∧ max_frequency_prominence [1, 2, 3] = 0 :=
  ⟨by decide, claim_C5_no_peaks_gives_zero [1, 2, 3] (by decide)⟩

/-! ## FeatureExtractor: `engineer_features` (features.py lines 25-115) -/

/-- `df[df['dir'] == 1]['size'].sum()`. -/
def sent_bytes (df : List Packet) : Int :=
  ((df.filter (fun p => p.dir == 1)).map Packet.size).sum

/-- `df[df['dir'] == 2]['size'].sum()`. -/
def received_bytes (df : List Packet) : Int :=
  ((df.filter (fun p => p.dir == 2)).map Packet.size).sum

/-- `len(df[df['dir'] == 1])`. -/
def sent_packets (df : List Packet) : Nat :=
  (df.filter (fun p => p.dir == 1)).length

/-- `len(df[df['dir'] == 2])`. -/
def received_packets (df : List Packet) : Nat :=
  (df.filter (fun p => p.dir == 2)).length

/-- `bytes_ratio = sent_bytes / received_bytes` (features.py line 51). -/
def bytes_ratio (df : List Packet) : ℚ :=
  (sent_bytes df : ℚ) / (received_bytes df : ℚ)

/-- `Series.mean()` over integer sizes: NaN (`none`) on an empty series. -/
def intMean? (l : List Int) : Option ℚ :=
  if l = [] then none else some ((l.map (fun z => (z : ℚ))).sum / (l.length : ℚ))

/-- `Series.mean()` over a series that may contain NaN: pandas skips NaN
values and yields NaN when nothing remains. -/
def nanmean (l : List (Option ℚ)) : Option ℚ :=
  mean? (l.filterMap id)

/-- `df.index.to_series().diff().dt.total_seconds() * 1000`: the
inter-packet delays in milliseconds attached to rows `1..n-1`; row 0 gets
NaN and is dropped by the subsequent `dropna`, leaving `df.tail` with one
delay per remaining row. -/
def ipDelays (df : List Packet) : List ℚ :=
  (df.zip df.tail).map (fun pq => ((pq.2.time - pq.1.time : Int) : ℚ))

/-- Outcome of one `engineer_features` task: an uncaught exception
(`err`, Python ZeroDivisionError), the explicit skip (`return None`), or a
feature vector whose entries may be NaN (`none`). -/
inductive EFResult where
  | err : EFResult
  | skip : EFResult
  | ok : List (Option ℚ) → EFResult
deriving DecidableEq, Repr

/-- `engineer_features(df, label, rolling_window_1, rolling_window_2,
resample_rate, frequency)` from features.py.  `spectrum` is the
uninterpreted composite `sqrt(welch(resample(·).sum()['size']))` — the
floating-point Welch stage — applied to the rows that survive the
inter-packet-delay `dropna` (i.e. `df.tail`); peaks, prominences, and the
guarded `.max()` are then computed by `max_frequency_prominence`.  `rw1`,
`rw2` are the rolling widths in milliseconds; `int(rw/1000)` is the
truncating division passed to `.rolling`.  The two `if`s model, in source
order, the explicit skip (line 44) and Python's ZeroDivisionError at line
65 when the window has no sent packets (the received-side denominators
are nonzero by the guard). -/
def engineer_features (spectrum : List Packet → List ℚ) (rows : List Row)
    (label : ℚ) (rw1 rw2 : Nat) : EFResult :=
  let df := dropna rows
  if received_bytes df = 0 ∨ received_packets df = 0 then .skip
  else
    let received_mean_size := intMean? ((df.filter (fun p => p.dir == 2)).map Packet.size)
    let sent_mean_size := intMean? ((df.filter (fun p => p.dir == 1)).map Packet.size)
    let count_ratio : ℚ := (sent_packets df : ℚ) / (received_packets df : ℚ)
    let sent_large := df.filter (fun p => p.dir == 1 && decide (p.size > 1200))
    let sent_small := df.filter (fun p => p.dir == 1 && decide (p.size < 200))
    let received_large := df.filter (fun p => p.dir == 2 && decide (p.size > 1200))
    let received_small := df.filter (fun p => p.dir == 2 && decide (p.size < 200))
    if sent_packets df = 0 then .err
    else
      let sent_large_prop : ℚ := (sent_large.length : ℚ) / (sent_packets df : ℚ)
      let sent_small_prop : ℚ := (sent_small.length : ℚ) / (sent_packets df : ℚ)
      let received_large_prop : ℚ := (received_large.length : ℚ) / (received_packets df : ℚ)
      let received_small_prop : ℚ := (received_small.length : ℚ) / (received_packets df : ℚ)
      let delays := ipDelays df
      let df2 := df.tail
      let df_max_prom := max_frequency_prominence (spectrum df2)
      let rolling_delays_10 := nanmean (roll delays (rw1 / 1000))
      let rolling_delays_60 := nanmean (roll delays (rw2 / 1000))
      let streak_sent := longest_dir_streak (df2.map Packet.dir) 1
      let streak_received := longest_dir_streak (df2.map Packet.dir) 2
      .ok [some (bytes_ratio df), some count_ratio,
           rolling_delays_10, rolling_delays_60,
           received_mean_size, sent_mean_size,
           some sent_large_prop, some sent_small_prop,
           some received_large_prop, some received_small_prop,
           some (streak_sent : ℚ), some (streak_received : ℚ),
           some df_max_prom, some label]

def EFResult.toVec : EFResult → Option (List (Option ℚ))
  | .ok v => some v
  | _ => none

def EFResult.isErr : EFResult → Bool
  | .err => true
  | _ => false

/-- Matrix assembly (features.py lines 170-172): keep the non-`None`
results (`filter(lambda x: x is not None, results)`), stack them, and
drop every row still containing a NaN (`.dropna()`). -/
def assembleMatrix (results : List EFResult) : List (List ℚ) :=
  (results.filterMap EFResult.toVec).filterMap (fun v => v.mapM id)

/-- C3: a window whose surviving rows have no received bytes or no
received packets makes `engineer_features` return `None` (skip), and such
a result contributes no row to the assembled feature matrix. -/
theorem claim_C3_skip_no_received (spectrum : List Packet → List ℚ)
    (rows : List Row) (label : ℚ) (rw1 rw2 : Nat)
    (h : received_bytes (dropna rows) = 0 ∨ received_packets (dropna rows) = 0) :
    engineer_features spectrum rows label rw1 rw2 = .skip ∧
    ∀ pre post : List EFResult,
      assembleMatrix (pre ++ engineer_features spectrum rows label rw1 rw2 :: post)
        = assembleMatrix (pre ++ post) := by
  have hskip : engineer_features spectrum rows label rw1 rw2 = .skip := by
    simp only [engineer_features]
    rw [if_pos h]
  refine ⟨hskip, fun pre post => ?_⟩
  rw [hskip]
  simp [assembleMatrix, List.filterMap_append, List.filterMap_cons, EFResult.toVec]

/-- C3 witness: a window with a single sent packet (no received traffic)
is skipped and adds no matrix row. -/
theorem claim_C3_witness :
    engineer_features (fun _ => []) [(⟨some 1, some 100, some 1⟩ : Row)] 1 1000 1000
      = .skip ∧
    assembleMatrix
        [engineer_features (fun _ => []) [(⟨some 1, some 100, some 1⟩ : Row)] 1 1000 1000]
      = assembleMatrix [] := by
  have h := claim_C3_skip_no_received (fun _ => [])
    [(⟨some 1, some 100, some 1⟩ : Row)] 1 1000 1000 (by decide)
  exact ⟨h.1, by simpa using h.2 [] []⟩

/-- C4: a window that passes the skip check but has zero sent packets
reaches `len(sent_large) / len(df[df['dir']==1])`, a Python integer
division by zero: the window is neither skipped nor given a defined
proportion value — the task raises ZeroDivisionError. -/
theorem claim_C4_zero_sent_raises (spectrum : List Packet → List ℚ)
    (rows : List Row) (label : ℚ) (rw1 rw2 : Nat)
    (hpass : ¬(received_bytes (dropna rows) = 0 ∨ received_packets (dropna rows) = 0))
    (hsent : sent_packets (dropna rows) = 0) :
    engineer_features spectrum rows label rw1 rw2 = .err := by
  simp only [engineer_features]
  rw [if_neg hpass, if_pos hsent]

/-- C4 witness: a window with one received packet and no sent packets
passes the skip check and hits the division-by-zero branch. -/
theorem claim_C4_witness :
    engineer_features (fun _ => []) [(⟨some 1, some 100, some 2⟩ : Row)] 1 1000 1000
      = .err :=
  claim_C4_zero_sent_raises (fun _ => []) [(⟨some 1, some 100, some 2⟩ : Row)]
    1 1000 1000 (by decide) (by decide)

/-- C8: with received bytes held fixed and positive, the `bytes_ratio`
feature is strictly increasing in the sent bytes. -/
theorem claim_C8_bytes_ratio_monotone (w1 w2 : List Packet)
    (hr : received_bytes w1 = received_bytes w2)
    (hpos : 0 < received_bytes w1)
    (hs : sent_bytes w1 < sent_bytes w2) :
    bytes_ratio w1 < bytes_ratio w2 := by
  unfold bytes_ratio
  rw [← hr]
  have hc : (0 : ℚ) < (received_bytes w1 : ℚ) := by exact_mod_cast hpos
  have hs' : (sent_bytes w1 : ℚ) < (sent_bytes w2 : ℚ) := by exact_mod_cast hs
  gcongr

/-- C8 witness: two windows with received bytes 50 and sent bytes 100 and
200 respectively. -/
theorem claim_C8_witness :
    bytes_ratio [⟨1, 100, 1⟩, ⟨2, 50, 2⟩] < bytes_ratio [⟨1, 200, 1⟩, ⟨2, 50, 2⟩] :=
  claim_C8_bytes_ratio_monotone [⟨1, 100, 1⟩, ⟨2, 50, 2⟩] [⟨1, 200, 1⟩, ⟨2, 50, 2⟩]
    (by decide) (by decide) (by decide)

/-- A concrete window used to exercise C10: direction sequence 1, 1, 2,
one packet per millisecond, all sizes 500. -/
def exampleWindow : List Row :=
  [⟨some 1, some 500, some 1⟩, ⟨some 2, some 500, some 1⟩, ⟨some 3, some 500, some 2⟩]

/-- C10: for a window that passes the skip check (and the zero-sent
sub-case), the streak features and the series handed to the spectral
stage are computed over the window with its first surviving row removed
(the row carrying the undefined first inter-packet delay is dropped
before resampling, Welch estimation, and streak counting); on the
concrete window with directions 1, 1, 2 the emitted sent-streak feature
is 1 although the full window's longest sent streak is 2. -/
theorem claim_C10_features_over_tail :
    (∀ (spectrum : List Packet → List ℚ) (rows : List Row) (label : ℚ) (rw1 rw2 : Nat),
      ¬(received_bytes (dropna rows) = 0 ∨ received_packets (dropna rows) = 0) →
      sent_packets (dropna rows) ≠ 0 →
      2 ≤ (dropna rows).length →
      ∃ v, engineer_features spectrum rows label rw1 rw2 = .ok v ∧
        v.get? 10 =
          some (some ((longest_dir_streak ((dropna rows).tail.map Packet.dir) 1 : ℚ))) ∧
        v.get? 11 =
          some (some ((longest_dir_streak ((dropna rows).tail.map Packet.dir) 2 : ℚ))) ∧
        v.get? 12 = some (some (max_frequency_prominence (spectrum (dropna rows).tail)))) ∧
    (∃ v, engineer_features (fun _ => []) exampleWindow 1 1000 1000 = .ok v ∧
      v.get? 10 = some (some (1 : ℚ)) ∧
      longest_dir_streak ((dropna exampleWindow).map Packet.dir) 1 = 2) := by
  have part1 : ∀ (spectrum : List Packet → List ℚ) (rows : List Row) (label : ℚ)
      (rw1 rw2 : Nat),
      ¬(received_bytes (dropna rows) = 0 ∨ received_packets (dropna rows) = 0) →
      sent_packets (dropna rows) ≠ 0 →
      2 ≤ (dropna rows).length →
      ∃ v, engineer_features spectrum rows label rw1 rw2 = .ok v ∧
        v.get? 10 =
          some (some ((longest_dir_streak ((dropna rows).tail.map Packet.dir) 1 : ℚ))) ∧
        v.get? 11 =
          some (some ((longest_dir_streak ((dropna rows).tail.map Packet.dir) 2 : ℚ))) ∧
        v.get? 12 = some (some (max_frequency_prominence (spectrum (dropna rows).tail))) := by
    intro spectrum rows label rw1 rw2 hpass hsent _hlen
    have hres : engineer_features spectrum rows label rw1 rw2 =
        .ok [some (bytes_ratio (dropna rows)),
             some ((sent_packets (dropna rows) : ℚ) / (received_packets (dropna rows) : ℚ)),
             nanmean (roll (ipDelays (dropna rows)) (rw1 / 1000)),
             nanmean (roll (ipDelays (dropna rows)) (rw2 / 1000)),
             intMean? (((dropna rows).filter (fun p => p.dir == 2)).map Packet.size),
             intMean? (((dropna rows).filter (fun p => p.dir == 1)).map Packet.size),
             some ((((dropna rows).filter
                 (fun p => p.dir == 1 && decide (p.size > 1200))).length : ℚ)
               / (sent_packets (dropna rows) : ℚ)),
             some ((((dropna rows).filter
                 (fun p => p.dir == 1 && decide (p.size < 200))).length : ℚ)
               / (sent_packets (dropna rows) : ℚ)),
             some ((((dropna rows).filter
                 (fun p => p.dir == 2 && decide (p.size > 1200))).length : ℚ)
               / (received_packets (dropna rows) : ℚ)),
             some ((((dropna rows).filter
                 (fun p => p.dir == 2 && decide (p.size < 200))).length : ℚ)
               / (received_packets (dropna rows) : ℚ)),
             some ((longest_dir_streak ((dropna rows).tail.map Packet.dir) 1 : ℚ)),
             some ((longest_dir_streak ((dropna rows).tail.map Packet.dir) 2 : ℚ)),
             some (max_frequency_prominence (spectrum (dropna rows).tail)),
             some label] := by
      simp only [engineer_features]
      rw [if_neg hpass, if_neg hsent]
    exact ⟨_, hres, rfl, rfl, rfl⟩
  refine ⟨part1, ?_⟩
  obtain ⟨v, hv, h10, _, _⟩ :=
    part1 (fun _ => []) exampleWindow 1 1000 1000 (by decide) (by decide) (by decide)
  refine ⟨v, hv, ?_, by decide⟩
  rw [h10, show longest_dir_streak ((dropna exampleWindow).tail.map Packet.dir) 1 = 1
    from by decide]
  norm_num

/-- C10 witness: the quantified part of the theorem applied to the
concrete window with directions 1, 1, 2. -/
theorem claim_C10_witness :
    ∃ v, engineer_features (fun _ => []) exampleWindow 1 1000 1000 = .ok v ∧
      v.get? 10 =
        some (some ((longest_dir_streak ((dropna exampleWindow).tail.map Packet.dir) 1 : ℚ))) ∧
      v.get? 11 =
        some (some ((longest_dir_streak ((dropna exampleWindow).tail.map Packet.dir) 2 : ℚ))) ∧
      v.get? 12 =
        some (some (max_frequency_prominence ((fun _ => ([] : List ℚ)) (dropna exampleWindow).tail))) :=
  claim_C10_features_over_tail.1 (fun _ => []) exampleWindow 1 1000 1000
    (by decide) (by decide) (by decide)

/-! ## ParallelFeaturePipeline: `create_features` (features.py lines 117-178) -/

/-- One preprocessed flow file, as discovered by
`glob.glob(os.path.join(source_dir, 'preprocessed*'))`: whether its name
contains 'novideo', and its packet rows. -/
structure FlowFile where
  novideo : Bool
  packets : List Packet
deriving DecidableEq, Repr

/-- `[split(f, chunk_size) for f in preprocessed_dfs]` followed by
`itertools.chain.from_iterable`: split every file and flatten the `(label,
window)` pairs in file order; `none` if any file makes `split` raise. -/
def splitAll (files : List FlowFile) (chunk : Int) :
    Option (List (Nat × List Packet)) :=
  match files with
  | [] => some []
  | f :: fs =>
    match split f.novideo f.packets chunk, splitAll fs chunk with
    | some g, some rest => some (g ++ rest)
    | _, _ => none

/-- `create_features` from features.py, from the per-file `split` up to
the assembled matrix.  `pool.map` is order-preserving, so the parallel
fan-out is the `List.map` over the flattened task list; one task raising
(an `err` result, e.g. C4's ZeroDivisionError) aborts the whole run
(`none`); `np.vstack` raises on an empty list of arrays (`none`); the
final `.dropna()` keeps the rows with every feature present.  File
discovery order (`glob.glob`) is OS-dependent, which is why C9 is stated
up to permutation of the discovered file list. -/
def create_features (spectrum : List Packet → List ℚ) (files : List FlowFile)
    (chunk : Int) (rw1 rw2 : Nat) : Option (List (List ℚ)) :=
  match splitAll files chunk with
  | none => none
  | some merged =>
    let results := merged.map (fun lw =>
      engineer_features spectrum (lw.2.map Packet.toRow) (lw.1 : ℚ) rw1 rw2)
    if results.any EFResult.isErr then none
    else if (results.filterMap EFResult.toVec).isEmpty then none
    else some (assembleMatrix results)

theorem splitAll_perm (chunk : Int) {f1 f2 : List FlowFile} (h : f1.Perm f2) :
    ∀ g1, splitAll f1 chunk = some g1 →
      ∃ g2, splitAll f2 chunk = some g2 ∧ g1.Perm g2 := by
  induction h with
  | nil =>
    intro g1 hg1
    exact ⟨g1, hg1, List.Perm.refl g1⟩
  | @cons x l₁ l₂ h ih =>
    intro g1 hg1
    simp only [splitAll] at hg1 ⊢
    cases hsx : split x.novideo x.packets chunk with
    | none =>
      rw [hsx] at hg1
      exact Option.noConfusion hg1
    | some gx =>
      rw [hsx] at hg1
      cases hs1 : splitAll l₁ chunk with
      | none =>
        rw [hs1] at hg1
        exact Option.noConfusion hg1
      | some r1 =>
        rw [hs1] at hg1
        have hg1' : gx ++ r1 = g1 := Option.some_inj.mp hg1
        obtain ⟨r2, hs2, hrperm⟩ := ih r1 hs1
        rw [hs2]
        exact ⟨gx ++ r2, rfl, hg1' ▸ hrperm.append_left gx⟩
  | swap a b l =>
    intro g1 hg1
    simp only [splitAll] at hg1 ⊢
    cases hsb : split b.novideo b.packets chunk with
    | none =>
      rw [hsb] at hg1
      exact Option.noConfusion hg1
    | some gb =>
      rw [hsb] at hg1
      cases hsa : split a.novideo a.packets chunk with
      | none =>
        rw [hsa] at hg1
        exact Option.noConfusion hg1
      | some ga =>
        rw [hsa] at hg1
        cases hsl : splitAll l chunk with
        | none =>
          rw [hsl] at hg1
          exact Option.noConfusion hg1
        | some r =>
          rw [hsl] at hg1
          have hg1' : gb ++ (ga ++ r) = g1 := Option.some_inj.mp hg1
          refine ⟨ga ++ (gb ++ r), rfl, ?_⟩
          rw [← hg1', ← List.append_assoc, ← List.append_assoc]
          exact (List.perm_append_comm).append_right r
  | trans h12 h23 ih12 ih23 =>
    intro g1 hg1
    obtain ⟨g2, hg2, hp12⟩ := ih12 g1 hg1
    obtain ⟨g3, hg3, hp23⟩ := ih23 g2 hg2
    exact ⟨g3, hg3, hp12.trans hp23⟩

theorem perm_any_eq {α : Type} {l1 l2 : List α} (f : α → Bool) (h : l1.Perm l2) :
    l1.any f = l2.any f := by
  apply Bool.eq_iff_iff.mpr
  simp only [List.any_eq_true]
  exact ⟨fun ⟨x, hx, hf⟩ => ⟨x, h.mem_iff.mp hx, hf⟩,
    fun ⟨x, hx, hf⟩ => ⟨x, h.mem_iff.mpr hx, hf⟩⟩

theorem assemble_branch_perm (results1 results2 : List EFResult)
    (hperm : results1.Perm results2) (m1 : List (List ℚ))
    (h1 : (if results1.any EFResult.isErr then none
      else if (results1.filterMap EFResult.toVec).isEmpty then none
      else some (assembleMatrix results1)) = some m1) :
    ∃ m2, (if results2.any EFResult.isErr then none
      else if (results2.filterMap EFResult.toVec).isEmpty then none
      else some (assembleMatrix results2)) = some m2 ∧ m1.Perm m2 := by
  have hany := perm_any_eq EFResult.isErr hperm
  have hfperm := hperm.filterMap EFResult.toVec
  have hempty : (results1.filterMap EFResult.toVec).isEmpty
      = (results2.filterMap EFResult.toVec).isEmpty := by
    apply Bool.eq_iff_iff.mpr
    rw [List.isEmpty_iff, List.isEmpty_iff]
    constructor
    · intro hnil
      have hlen := hfperm.length_eq
      rw [hnil] at hlen
      exact List.length_eq_zero.mp hlen.symm
    · intro hnil
      have hlen := hfperm.length_eq
      rw [hnil] at hlen
      exact List.length_eq_zero.mp hlen
  rw [← hany, ← hempty]
  by_cases herr : results1.any EFResult.isErr = true
  · rw [if_pos herr] at h1 ⊢
    exact Option.noConfusion h1
  · rw [if_neg herr] at h1 ⊢
    by_cases hemp : (results1.filterMap EFResult.toVec).isEmpty = true
    · rw [if_pos hemp] at h1 ⊢
      exact Option.noConfusion h1
    · rw [if_neg hemp] at h1 ⊢
      have hm : assembleMatrix results1 = m1 := Option.some_inj.mp h1
      refine ⟨assembleMatrix results2, rfl, ?_⟩
      rw [← hm]
      simpa [assembleMatrix] using hfperm.filterMap (fun v => v.mapM id)

/-- C9: two runs of the pipeline over the same source files and the same
parameters — the discovered file lists may come back from `glob` in any
order, i.e. as permutations of each other — produce feature matrices that
are identical up to row order; in particular (taking the permutation to
be the identity) the computation from inputs to matrix is deterministic. -/
theorem claim_C9_pipeline_deterministic_up_to_row_order
    (spectrum : List Packet → List ℚ) (chunk : Int) (rw1 rw2 : Nat)
    {files1 files2 : List FlowFile} (hperm : files1.Perm files2)
    (m1 : List (List ℚ))
    (h1 : create_features spectrum files1 chunk rw1 rw2 = some m1) :
    ∃ m2, create_features spectrum files2 chunk rw1 rw2 = some m2 ∧ m1.Perm m2 := by
  simp only [create_features] at h1 ⊢
  cases hs1 : splitAll files1 chunk with
  | none =>
    rw [hs1] at h1
    exact Option.noConfusion h1
  | some merged1 =>
    rw [hs1] at h1
    obtain ⟨merged2, hs2, hmperm⟩ := splitAll_perm chunk hperm merged1 hs1
    rw [hs2]
    exact assemble_branch_perm _ _ (hmperm.map _) m1 h1

/-- C9 witness: the theorem applied to two concrete flow files discovered
in the two possible orders.  With rolling widths of 2000 ms each window
has one inter-packet delay against a count-2 rolling window, so both
feature rows carry a NaN and the assembled matrix is empty in both runs. -/
theorem claim_C9_witness :
    ∃ m2, create_features (fun _ => [])
        [⟨true, [⟨1, 300, 1⟩, ⟨3, 400, 2⟩]⟩, ⟨false, [⟨1, 500, 1⟩, ⟨2, 600, 2⟩]⟩]
        10 2000 2000 = some m2 ∧ ([] : List (List ℚ)).Perm m2 :=
  claim_C9_pipeline_deterministic_up_to_row_order (fun _ => []) 10 2000 2000
    (List.Perm.swap ⟨true, [⟨1, 300, 1⟩, ⟨3, 400, 2⟩]⟩
      ⟨false, [⟨1, 500, 1⟩, ⟨2, 600, 2⟩]⟩ [])
    [] (by decide)

end Viasat
